import Mathlib

set_option maxHeartbeats 1000000
set_option maxRecDepth 8000

/-! Verification of the MPX script-block extractor
(`crates/oxc_linter/src/loader/partial_loader/mpx.rs`).

The document is modelled as a `List Char`; all offsets are UTF-8 byte
offsets, exactly as in the Rust code, computed with `Char.utf8Size`.
Helper functions declared in the sibling module (`find_script_start`,
`find_script_closing_angle`, the marker constants) and the external
registry (`SourceType`) are not part of the provided sources and are
modelled from the specification; each such definition says so in its
doc comment. -/

/-- Single-quote character (ASCII 39). -/
def squote : Char := Char.ofNat 39

/-- Double-quote character (ASCII 34). -/
def dquote : Char := Char.ofNat 34

/-- Total UTF-8 byte length of a character list, as Rust `str::len`. -/
def utf8Len : List Char → Nat
  | [] => 0
  | c :: s => c.utf8Size + utf8Len s

/-- `leadsWith pat s` holds when `pat` occurs at the very start of `s`. -/
def leadsWith : List Char → List Char → Bool
  | [], _ => true
  | _ :: _, [] => false
  | a :: as, b :: bs => if a = b then leadsWith as bs else false

/-- Byte offset of the first occurrence of `pat`, as `memmem::Finder::find`
(our needles are ASCII, so char-level search returns the same byte offset). -/
def findSubB (pat : List Char) : List Char → Option Nat
  | [] => if leadsWith pat [] then some 0 else none
  | c :: s =>
    if leadsWith pat (c :: s) then some 0
    else (findSubB pat s).map (fun n => n + c.utf8Size)

/-- Byte offset of the last occurrence of `pat`, as `FinderRev::rfind`. -/
def rfindSubB (pat : List Char) : List Char → Option Nat
  | [] => if leadsWith pat [] then some 0 else none
  | c :: s =>
    match rfindSubB pat s with
    | some n => some (n + c.utf8Size)
    | none => if leadsWith pat (c :: s) then some 0 else none

/-- Byte offset of the first character satisfying `p`, as `str::find` with a
character predicate. -/
def findCharB (p : Char → Bool) : List Char → Option Nat
  | [] => none
  | c :: s => if p c then some 0 else (findCharB p s).map (fun n => n + c.utf8Size)

/-- Drop the first `n` bytes, as the Rust slice `s[n..]` (callers only use
valid character boundaries). -/
def dropB : List Char → Nat → List Char
  | s, 0 => s
  | [], _ => []
  | c :: s, n + 1 => dropB s (n + 1 - c.utf8Size)

/-- Take the first `n` bytes, as the Rust slice `s[..n]` (callers only use
valid character boundaries). -/
def takeB : List Char → Nat → List Char
  | _, 0 => []
  | [], _ => []
  | c :: s, n + 1 => c :: takeB s (n + 1 - c.utf8Size)

/-- Rust `char::is_whitespace`: the Unicode White_Space property. -/
def rustIsWhitespace (c : Char) : Bool :=
  c.toNat = 0x09 || c.toNat = 0x0A || c.toNat = 0x0B || c.toNat = 0x0C ||
  c.toNat = 0x0D || c.toNat = 0x20 || c.toNat = 0x85 || c.toNat = 0xA0 ||
  c.toNat = 0x1680 || (0x2000 ≤ c.toNat && c.toNat ≤ 0x200A) ||
  c.toNat = 0x2028 || c.toNat = 0x2029 || c.toNat = 0x202F ||
  c.toNat = 0x205F || c.toNat = 0x3000

/-- Rust `str::trim_start`. -/
def trimStartC : List Char → List Char
  | [] => []
  | c :: s => if rustIsWhitespace c then trimStartC s else c :: s

/-- Rust `str::trim` (trim both ends). -/
def trimC (s : List Char) : List Char :=
  ((trimStartC (trimStartC s).reverse)).reverse

/-- Modelled from the spec: the literal tag-start marker searched by the
Comment-Aware Tag Finder (constant `SCRIPT_START` of the sibling module,
not under the provided sources). -/
def SCRIPT_START : List Char := "<script".data

/-- Modelled from the spec: the literal closing marker searched by the Body
Extractor (constant `SCRIPT_END` of the sibling module). -/
def SCRIPT_END : List Char := "</script>".data

/-- Modelled from the spec: the HTML comment-start marker (constant
`COMMENT_START` of the sibling module). -/
def COMMENT_START : List Char := "<!--".data

/-- Modelled from the spec: the HTML comment-end marker (constant
`COMMENT_END` of the sibling module). -/
def COMMENT_END : List Char := "-->".data

/-- Modelled from the spec (4.1 Comment-Aware Tag Finder): the loop body of
`find_script_start` from the sibling module, which is not under the provided
sources. From search position `p`: find the next `<script` candidate; find
the nearest comment-start at or before it and the nearest comment-end after
that comment-start; if that comment-end lies after the candidate, the
candidate is inside a comment, so retry just after the comment-end;
otherwise accept. Returns the offset relative to `pointer` of the position
just past the accepted `<script` (the call site adds the result to its
cursor and expects to stand right after the marker). Fuel bounds the retry
loop; each retry strictly advances, so `utf8Len s + 1` always suffices. -/
def findScriptStartGo (s : List Char) (pointer : Nat) : Nat → Nat → Option Nat
  | 0, _ => none
  | fuel + 1, p =>
    match findSubB SCRIPT_START (dropB s p) with
    | none => none
    | some rel =>
      let c := p + rel
      match rfindSubB COMMENT_START (takeB s c) with
      | none => some (c + SCRIPT_START.length - pointer)
      | some cs =>
        match findSubB COMMENT_END (dropB s cs) with
        | none => some (c + SCRIPT_START.length - pointer)
        | some ceRel =>
          if c < cs + ceRel then
            findScriptStartGo s pointer fuel (cs + ceRel + COMMENT_END.length)
          else some (c + SCRIPT_START.length - pointer)

/-- Modelled from the spec: `find_script_start` of the sibling module. -/
def find_script_start (s : List Char) (pointer : Nat) : Option Nat :=
  findScriptStartGo s pointer (utf8Len s + 1) pointer

/-- State of the Quote-Aware Boundary Scanner. -/
inductive QState where
  | normal
  | single
  | double
deriving DecidableEq

/-- Modelled from the spec (4.3 Quote-Aware Boundary Scanner): in NORMAL a
`>` terminates the tag and a quote enters the matching quote state; in a
quote state only the matching quote returns to NORMAL and `>` is ignored.
Returns the byte offset of the terminating `>`. -/
def findClosingAngleAux : QState → List Char → Option Nat
  | _, [] => none
  | .normal, c :: s =>
    if c = '>' then some 0
    else if c = squote then (findClosingAngleAux .single s).map (fun n => n + c.utf8Size)
    else if c = dquote then (findClosingAngleAux .double s).map (fun n => n + c.utf8Size)
    else (findClosingAngleAux .normal s).map (fun n => n + c.utf8Size)
  | .single, c :: s =>
    if c = squote then (findClosingAngleAux .normal s).map (fun n => n + c.utf8Size)
    else (findClosingAngleAux .single s).map (fun n => n + c.utf8Size)
  | .double, c :: s =>
    if c = dquote then (findClosingAngleAux .normal s).map (fun n => n + c.utf8Size)
    else (findClosingAngleAux .double s).map (fun n => n + c.utf8Size)

/-- Modelled from the spec: `find_script_closing_angle` of the sibling
module: scan from byte offset `pointer` for the tag's terminating `>`. -/
def find_script_closing_angle (s : List Char) (pointer : Nat) : Option Nat :=
  findClosingAngleAux .normal (dropB s pointer)

/-- Modelled from the spec: the two base languages of a descriptor. -/
inductive Lang where
  | javascript
  | typescript
deriving DecidableEq, Repr

/-- Modelled from the spec: the external language descriptor (`SourceType`
from `oxc_span`): an opaque descriptor carrying a JSX-variant flag that the
core may override. `isModule` records ECMAScript-module vs CommonJS. -/
structure SourceType where
  language : Lang
  isModule : Bool
  jsx : Bool
deriving DecidableEq, Repr

/-- Modelled from the spec: the external registry capability
`resolve(token) = descriptor or not-found` (`SourceType::from_extension`).
Plain JavaScript tokens default to the JSX-permitting variant (the spec
notes a `.js`-mapped default "would otherwise permit JSX"). -/
def SourceType.from_extension (token : List Char) : Option SourceType :=
  if token = ("js".data) then some ⟨.javascript, true, true⟩
  else if token = ("mjs".data) then some ⟨.javascript, true, true⟩
  else if token = ("cjs".data) then some ⟨.javascript, false, true⟩
  else if token = ("jsx".data) then some ⟨.javascript, true, true⟩
  else if token = ("ts".data) then some ⟨.typescript, true, false⟩
  else if token = ("mts".data) then some ⟨.typescript, true, false⟩
  else if token = ("cts".data) then some ⟨.typescript, false, false⟩
  else if token = ("tsx".data) then some ⟨.typescript, true, true⟩
  else none

/-- Modelled from the spec: `SourceType::with_standard(true)` forces the
descriptor's JSX-variant flag to false. -/
def SourceType.with_standard (st : SourceType) (yes : Bool) : SourceType :=
  if yes then { st with jsx := false } else st

/-- Modelled from the spec: the ExtractedSource record (`JavaScriptSource`,
declared outside the provided sources): body text, language descriptor and
absolute byte start offset of the body in the document. -/
structure JavaScriptSource where
  source_text : List Char
  source_type : SourceType
  start : Nat
deriving DecidableEq, Repr

/-- `MpxPartialLoader::extract_lang_attribute`, translated line by line from
the source. -/
def extract_lang_attribute (content0 : List Char) : List Char :=
  let content := trimC content0
  match findSubB ("lang".data) content with
  | none => "mjs".data
  | some lang_index =>
    let rest0 := trimStartC (dropB content (lang_index + 4))
    match rest0 with
    | [] => "mjs".data
    | c :: rest1 =>
      if c = '=' then
        let rest := trimStartC rest1
        match rest with
        | [] => "mjs".data
        | q :: rest2 =>
          if q = dquote ∨ q = squote then
            match findSubB [q] rest2 with
            | some e => takeB rest2 e
            | none => "mjs".data
          else
            match findCharB (fun ch => rustIsWhitespace ch || ch = '>') rest with
            | some e => takeB rest e
            | none => rest
      else "mjs".data

/-- The source's `starts_with([' ', '>'])` check on the text after
`<script`: true when the next character is a space or `>`. -/
def startsWithSpaceOrGt : List Char → Bool
  | [] => false
  | c :: _ => c = ' ' || c = '>'

/-- `MpxPartialLoader::parse_script`: one driver iteration, returning the
extracted record together with the updated cursor. The `&mut pointer` loop of
the source becomes fuel-bounded recursion; every retry advances the cursor
by at least one byte, so fuel `utf8Len s + 1` always suffices. -/
def parse_script (s : List Char) : Nat → Nat → Option (JavaScriptSource × Nat)
  | 0, _ => none
  | fuel + 1, pointer =>
    match find_script_start s pointer with
    | none => none
    | some rel =>
      let p1 := pointer + rel
      if startsWithSpaceOrGt (dropB s p1) = false then
        parse_script s fuel p1
      else
        match find_script_closing_angle s p1 with
        | none => none
        | some offset =>
          let content := takeB (dropB s p1) offset
          let lang := extract_lang_attribute content
          match SourceType.from_extension lang with
          | none => parse_script s fuel (p1 + offset + 1)
          | some st0 =>
            let st := if lang.contains 'x' then st0 else st0.with_standard true
            let js_start := p1 + offset + 1
            match findSubB SCRIPT_END (dropB s js_start) with
            | none => none
            | some end_offset =>
              some (⟨takeB (dropB s js_start) end_offset, st, js_start⟩,
                js_start + end_offset + SCRIPT_END.length)

/-- `MpxPartialLoader::parse_scripts`: collect records while `parse_script`
succeeds. Fuel bounds the outer loop; each success strictly advances the
cursor, so `utf8Len s + 1` always suffices. -/
def parse_scripts_go (s : List Char) : Nat → Nat → List JavaScriptSource
  | 0, _ => []
  | fuel + 1, pointer =>
    match parse_script s (utf8Len s + 1) pointer with
    | none => []
    | some (r, p) => r :: parse_scripts_go s fuel p

/-- `MpxPartialLoader::parse`: scan the whole document from offset 0. -/
def parse (s : List Char) : List JavaScriptSource :=
  parse_scripts_go s (utf8Len s + 1) 0

/-! Specification-side vocabulary used to state the claims: a structural
model of well-formed documents, and the records the spec expects. -/

/-- `Boundary s n`: byte offset `n` is a valid character boundary of `s`. -/
def Boundary (s : List Char) (n : Nat) : Prop :=
  ∃ a b, s = a ++ b ∧ n = utf8Len a

/-- A script block of a well-formed document: the raw attribute text
(everything between `<script` and the terminating `>`) and the body text. -/
structure Block where
  attrs : List Char
  body : List Char

/-- The literal text of a script block: `<script` + attributes + `>` +
body + `</script>`. -/
def renderBlock (b : Block) : List Char :=
  SCRIPT_START ++ b.attrs ++ '>' :: (b.body ++ SCRIPT_END)

/-- A document assembled from gap text, script blocks, and trailing text. -/
def renderDoc : List (List Char × Block) → List Char → List Char
  | [], tail => tail
  | (g, b) :: rest, tail => g ++ (renderBlock b ++ renderDoc rest tail)

/-- No occurrence of `pat` begins inside `a` (not even one crossing over
into the following text `b`). -/
def noCrossOcc (pat : List Char) : List Char → List Char → Bool
  | [], _ => true
  | a :: as, b => !leadsWith pat (a :: (as ++ b)) && noCrossOcc pat as b

/-- The Comment-Aware Tag Finder accepts a candidate at byte position `c`:
no comment-start precedes it, or the enclosing comment is unclosed, or the
nearest comment's end lies at or before the candidate. -/
def acceptAt (s : List Char) (c : Nat) : Bool :=
  match rfindSubB COMMENT_START (takeB s c) with
  | none => true
  | some cs =>
    match findSubB COMMENT_END (dropB s cs) with
    | none => true
    | some ceRel => if c < cs + ceRel then false else true

/-- Run the Quote-Aware Boundary Scanner's state machine over a list
without consuming a terminating `>`: `none` if a `>` is hit in NORMAL
state, otherwise the final state. -/
def runQ : QState → List Char → Option QState
  | st, [] => some st
  | .normal, c :: s =>
    if c = '>' then none
    else if c = squote then runQ .single s
    else if c = dquote then runQ .double s
    else runQ .normal s
  | .single, c :: s => if c = squote then runQ .normal s else runQ .single s
  | .double, c :: s => if c = dquote then runQ .normal s else runQ .double s

/-- Well-formed attribute text: the character after `<script` is a space or
the terminating `>` itself, and all quotes are balanced with no unquoted
`>` inside. -/
def validAttrs (attrs : List Char) : Bool :=
  startsWithSpaceOrGt (attrs ++ ['>']) && decide (runQ .normal attrs = some .normal)

/-- The language descriptor the Language Resolver assigns to a block with
attribute text `attrs` (meaningful when resolution succeeds). -/
def expectedType (attrs : List Char) : SourceType :=
  let lang := extract_lang_attribute attrs
  match SourceType.from_extension lang with
  | none => ⟨.javascript, true, false⟩
  | some st0 => if lang.contains 'x' then st0 else st0.with_standard true

/-- The records the spec expects for a well-formed document: one per block,
in document order, each starting just past its tag's terminating `>`. -/
def expectedRecords : List Char → List (List Char × Block) → List JavaScriptSource
  | _, [] => []
  | p, (g, b) :: rest =>
    ⟨b.body, expectedType b.attrs, utf8Len (p ++ g ++ SCRIPT_START ++ b.attrs) + 1⟩ ::
      expectedRecords (p ++ g ++ renderBlock b) rest

/-- Well-formedness of the part of document `s` after prefix `p`, made of
`blocks` and trailing text `tail`: each gap contains no `<script`
occurrence, each candidate is outside comments, attributes are well formed,
each language token resolves, each body contains no premature closing
marker, and the trailing text contains no further `<script`. -/
def wfFrom (s : List Char) : List Char → List (List Char × Block) → List Char → Bool
  | _, [], tail => (findSubB SCRIPT_START tail).isNone
  | p, (g, b) :: rest, tail =>
    noCrossOcc SCRIPT_START g (renderBlock b ++ renderDoc rest tail) &&
    acceptAt s (utf8Len (p ++ g)) &&
    validAttrs b.attrs &&
    (SourceType.from_extension (extract_lang_attribute b.attrs)).isSome &&
    noCrossOcc SCRIPT_END b.body (SCRIPT_END ++ renderDoc rest tail) &&
    wfFrom s (p ++ g ++ renderBlock b) rest tail

/-! Basic lemmas about byte lengths, slicing, and substring search. -/

theorem utf8Len_nil : utf8Len [] = 0 := rfl

theorem utf8Len_cons (c : Char) (s : List Char) :
    utf8Len (c :: s) = c.utf8Size + utf8Len s := rfl

theorem utf8Len_append (a b : List Char) :
    utf8Len (a ++ b) = utf8Len a + utf8Len b := by
  induction a with
  | nil => simp [utf8Len]
  | cons c as ih => simp [utf8Len_cons, ih]; omega

theorem dropB_zero (s : List Char) : dropB s 0 = s := by cases s <;> rfl

theorem dropB_cons_pos (c : Char) (s : List Char) (n : Nat) (h : 0 < n) :
    dropB (c :: s) n = dropB s (n - c.utf8Size) := by
  cases n with
  | zero => omega
  | succ m => rfl

theorem takeB_zero (s : List Char) : takeB s 0 = [] := by cases s <;> rfl

theorem takeB_cons_pos (c : Char) (s : List Char) (n : Nat) (h : 0 < n) :
    takeB (c :: s) n = c :: takeB s (n - c.utf8Size) := by
  cases n with
  | zero => omega
  | succ m => rfl

theorem dropB_append (a b : List Char) : dropB (a ++ b) (utf8Len a) = b := by
  induction a with
  | nil => simpa using dropB_zero b
  | cons c as ih =>
    have hc := Char.utf8Size_pos c
    have hpos : 0 < utf8Len (c :: as) := by rw [utf8Len_cons]; omega
    rw [List.cons_append, dropB_cons_pos _ _ _ hpos]
    have heq : utf8Len (c :: as) - c.utf8Size = utf8Len as := by
      rw [utf8Len_cons]; omega
    rw [heq, ih]

theorem takeB_append (a b : List Char) : takeB (a ++ b) (utf8Len a) = a := by
  induction a with
  | nil => simpa using takeB_zero b
  | cons c as ih =>
    have hc := Char.utf8Size_pos c
    have hpos : 0 < utf8Len (c :: as) := by rw [utf8Len_cons]; omega
    rw [List.cons_append, takeB_cons_pos _ _ _ hpos]
    have heq : utf8Len (c :: as) - c.utf8Size = utf8Len as := by
      rw [utf8Len_cons]; omega
    rw [heq, ih]

theorem leadsWith_append_self (p x : List Char) : leadsWith p (p ++ x) = true := by
  induction p with
  | nil => rfl
  | cons c cs ih => simp [leadsWith, ih]

theorem leadsWith_iff (p : List Char) : ∀ s, leadsWith p s = true ↔ ∃ t, s = p ++ t := by
  induction p with
  | nil => intro s; simp [leadsWith]
  | cons c cs ih =>
    intro s
    cases s with
    | nil => simp [leadsWith]
    | cons d ds =>
      by_cases hcd : c = d
      · subst hcd
        simp only [leadsWith, if_pos rfl, if_true, ih, List.cons_append,
          List.cons.injEq, true_and]
      · simp only [leadsWith, if_neg hcd, List.cons_append, List.cons.injEq]
        constructor
        · intro h; cases h
        · rintro ⟨t, hd, _⟩; exact absurd hd.symm hcd

theorem findSubB_nil (pat : List Char) :
    findSubB pat [] = if leadsWith pat [] then some 0 else none := rfl

theorem findSubB_cons (pat : List Char) (c : Char) (s : List Char) :
    findSubB pat (c :: s) =
      if leadsWith pat (c :: s) then some 0
      else (findSubB pat s).map (fun n => n + c.utf8Size) := rfl

theorem findSubB_eq_none_iff (pat : List Char) :
    ∀ s, findSubB pat s = none ↔ ∀ i, leadsWith pat (s.drop i) = false := by
  intro s
  induction s with
  | nil =>
    cases hl : leadsWith pat [] with
    | false => simp [findSubB_nil, hl]
    | true => simp [findSubB_nil, hl]
  | cons c s ih =>
    cases hl : leadsWith pat (c :: s) with
    | false =>
      rw [findSubB_cons, if_neg (by simp [hl]), Option.map_eq_none', ih]
      constructor
      · intro h i
        cases i with
        | zero => simpa using hl
        | succ j => simpa using h j
      · intro h j
        simpa using h (j + 1)
    | true =>
      rw [findSubB_cons, if_pos hl]
      constructor
      · intro h; cases h
      · intro h
        have h0 := h 0
        rw [List.drop_zero, hl] at h0
        cases h0

theorem findSubB_sound (pat : List Char) :
    ∀ s n, findSubB pat s = some n → ∃ a t, s = a ++ pat ++ t ∧ n = utf8Len a := by
  intro s
  induction s with
  | nil =>
    intro n h
    rw [findSubB_nil] at h
    by_cases hl : leadsWith pat [] = true
    · rw [if_pos hl] at h
      obtain ⟨t, ht⟩ := (leadsWith_iff pat []).mp hl
      injection h with h'
      exact ⟨[], t, by simpa using ht, h'.symm⟩
    · rw [if_neg hl] at h; cases h
  | cons c s ih =>
    intro n h
    rw [findSubB_cons] at h
    by_cases hl : leadsWith pat (c :: s) = true
    · rw [if_pos hl] at h
      obtain ⟨t, ht⟩ := (leadsWith_iff _ _).mp hl
      injection h with h'
      exact ⟨[], t, by simpa using ht, h'.symm⟩
    · rw [if_neg hl] at h
      cases hfs : findSubB pat s with
      | none => rw [hfs] at h; cases h
      | some m =>
        rw [hfs] at h
        injection h with h'
        obtain ⟨a, t, hat, hm⟩ := ih m hfs
        refine ⟨c :: a, t, by simp [hat], ?_⟩
        have h'' : m + c.utf8Size = n := h'
        rw [utf8Len_cons]
        omega

theorem findSubB_self (pat t : List Char) : findSubB pat (pat ++ t) = some 0 := by
  cases hp : pat ++ t with
  | nil => rw [findSubB_nil, if_pos (by rw [← hp]; exact leadsWith_append_self _ _)]
  | cons c s => rw [findSubB_cons, if_pos (by rw [← hp]; exact leadsWith_append_self _ _)]

theorem noCrossOcc_nil (pat b : List Char) : noCrossOcc pat [] b = true := rfl

theorem noCrossOcc_cons (pat : List Char) (a : Char) (as b : List Char) :
    noCrossOcc pat (a :: as) b =
      (!leadsWith pat (a :: (as ++ b)) && noCrossOcc pat as b) := rfl

theorem findSubB_append_of_noCrossOcc (pat : List Char) :
    ∀ a b, noCrossOcc pat a b = true →
      findSubB pat (a ++ b) = (findSubB pat b).map (fun n => n + utf8Len a) := by
  intro a
  induction a with
  | nil =>
    intro b _
    cases h : findSubB pat b <;> simp [h, utf8Len]
  | cons c as ih =>
    intro b hno
    rw [noCrossOcc_cons] at hno
    have h1 : leadsWith pat (c :: (as ++ b)) = false := by
      cases hl : leadsWith pat (c :: (as ++ b)) with
      | false => rfl
      | true => rw [hl] at hno; simp at hno
    have h2 : noCrossOcc pat as b = true := by
      cases hn2 : noCrossOcc pat as b with
      | true => rfl
      | false => rw [hn2] at hno; simp at hno
    rw [List.cons_append, findSubB_cons, if_neg (by simp [h1]), ih b h2]
    cases h : findSubB pat b with
    | none => simp
    | some m => simp [utf8Len_cons]; omega

theorem findSubB_append_self_of_noCrossOcc (pat a t : List Char)
    (h : noCrossOcc pat a (pat ++ t) = true) :
    findSubB pat (a ++ pat ++ t) = some (utf8Len a) := by
  rw [List.append_assoc, findSubB_append_of_noCrossOcc pat a (pat ++ t) h,
    findSubB_self]
  simp

theorem rfindSubB_nil (pat : List Char) :
    rfindSubB pat [] = if leadsWith pat [] then some 0 else none := rfl

theorem rfindSubB_cons_some (pat : List Char) (c : Char) (s : List Char) (m : Nat)
    (h : rfindSubB pat s = some m) :
    rfindSubB pat (c :: s) = some (m + c.utf8Size) := by
  simp [rfindSubB, h]

theorem rfindSubB_cons_none (pat : List Char) (c : Char) (s : List Char)
    (h : rfindSubB pat s = none) :
    rfindSubB pat (c :: s) = if leadsWith pat (c :: s) then some 0 else none := by
  simp [rfindSubB, h]

theorem rfindSubB_eq_none_iff (pat : List Char) :
    ∀ s, rfindSubB pat s = none ↔ ∀ i, leadsWith pat (s.drop i) = false := by
  intro s
  induction s with
  | nil =>
    cases hl : leadsWith pat [] with
    | false => simp [rfindSubB_nil, hl]
    | true => simp [rfindSubB_nil, hl]
  | cons c s ih =>
    cases hr : rfindSubB pat s with
    | some m =>
      rw [rfindSubB_cons_some pat c s m hr]
      constructor
      · intro h; cases h
      · intro h
        have hnone : rfindSubB pat s = none := by
          rw [ih]
          intro i
          simpa using h (i + 1)
        rw [hnone] at hr; cases hr
    | none =>
      rw [rfindSubB_cons_none pat c s hr]
      cases hl : leadsWith pat (c :: s) with
      | true =>
        rw [if_pos rfl]
        constructor
        · intro h; cases h
        · intro h; have h0 := h 0; rw [List.drop_zero, hl] at h0; cases h0
      | false =>
        rw [if_neg (by simp)]
        have hs := ih.mp hr
        constructor
        · intro _ i
          cases i with
          | zero => simpa using hl
          | succ j => simpa using hs j
        · intro _; rfl

theorem rfindSubB_sound (pat : List Char) :
    ∀ s n, rfindSubB pat s = some n → ∃ a t, s = a ++ pat ++ t ∧ n = utf8Len a := by
  intro s
  induction s with
  | nil =>
    intro n h
    rw [rfindSubB_nil] at h
    by_cases hl : leadsWith pat [] = true
    · rw [if_pos hl] at h
      obtain ⟨t, ht⟩ := (leadsWith_iff pat []).mp hl
      injection h with h'
      exact ⟨[], t, by simpa using ht, h'.symm⟩
    · rw [if_neg hl] at h; cases h
  | cons c s ih =>
    intro n h
    cases hr : rfindSubB pat s with
    | some m =>
      rw [rfindSubB_cons_some pat c s m hr] at h
      injection h with h'
      obtain ⟨a, t, hat, hm⟩ := ih m hr
      refine ⟨c :: a, t, by simp [hat], ?_⟩
      rw [utf8Len_cons]
      omega
    | none =>
      rw [rfindSubB_cons_none pat c s hr] at h
      by_cases hl : leadsWith pat (c :: s) = true
      · rw [if_pos hl] at h
        injection h with h'
        obtain ⟨t, ht⟩ := (leadsWith_iff _ _).mp hl
        exact ⟨[], t, by simpa using ht, h'.symm⟩
      · rw [if_neg hl] at h; cases h

theorem rfindSubB_last (pat b : List Char) (hp : pat ≠ [])
    (hafter : ∀ i, 1 ≤ i → leadsWith pat ((pat ++ b).drop i) = false) :
    ∀ a, rfindSubB pat (a ++ (pat ++ b)) = some (utf8Len a) := by
  intro a
  induction a with
  | nil =>
    cases hpat : pat with
    | nil => exact absurd hpat hp
    | cons pc ps =>
      subst hpat
      have hnone : rfindSubB (pc :: ps) (ps ++ b) = none := by
        rw [rfindSubB_eq_none_iff]
        intro i
        have h1 := hafter (i + 1) (by omega)
        simpa using h1
      rw [List.nil_append, List.cons_append,
        rfindSubB_cons_none _ pc (ps ++ b) hnone,
        if_pos (by rw [← List.cons_append]; exact leadsWith_append_self _ _)]
      rfl
  | cons x a' ih =>
    rw [List.cons_append, rfindSubB_cons_some pat x _ _ ih, utf8Len_cons]
    congr 1
    omega

theorem findCharB_cons (p : Char → Bool) (c : Char) (s : List Char) :
    findCharB p (c :: s) =
      if p c then some 0 else (findCharB p s).map (fun n => n + c.utf8Size) := rfl

theorem findCharB_sound (p : Char → Bool) :
    ∀ s n, findCharB p s = some n → ∃ a c t, s = a ++ c :: t ∧ p c = true ∧ n = utf8Len a := by
  intro s
  induction s with
  | nil => intro n h; cases h
  | cons c s ih =>
    intro n h
    rw [findCharB_cons] at h
    by_cases hc : p c = true
    · rw [if_pos hc] at h
      injection h with h'
      exact ⟨[], c, s, rfl, hc, h'.symm⟩
    · rw [if_neg hc] at h
      cases hfs : findCharB p s with
      | none => rw [hfs] at h; cases h
      | some m =>
        rw [hfs] at h
        injection h with h'
        have h'' : m + c.utf8Size = n := h'
        obtain ⟨a, d, t, hat, hd, hm⟩ := ih m hfs
        refine ⟨c :: a, d, t, by simp [hat], hd, ?_⟩
        rw [utf8Len_cons]
        omega

theorem trimStartC_suffix : ∀ s : List Char, ∃ u, s = u ++ trimStartC s := by
  intro s
  induction s with
  | nil => exact ⟨[], rfl⟩
  | cons c s ih =>
    by_cases hc : rustIsWhitespace c = true
    · obtain ⟨u, hu⟩ := ih
      refine ⟨c :: u, ?_⟩
      rw [trimStartC, if_pos hc, List.cons_append, ← hu]
    · exact ⟨[], by rw [trimStartC, if_neg hc, List.nil_append]⟩

/-! Lemmas about the quote-aware boundary scanner. -/

theorem squote_ne_gt : squote ≠ '>' := by decide

theorem dquote_ne_gt : dquote ≠ '>' := by decide

theorem dquote_ne_squote : dquote ≠ squote := by decide

theorem runQ_closing (rest : List Char) :
    ∀ attrs st, runQ st attrs = some .normal →
      findClosingAngleAux st (attrs ++ '>' :: rest) = some (utf8Len attrs) := by
  intro attrs
  induction attrs with
  | nil =>
    intro st h
    simp only [runQ, Option.some.injEq] at h
    subst h
    simp [findClosingAngleAux, utf8Len]
  | cons c cs ih =>
    intro st h
    cases st with
    | normal =>
      simp only [runQ] at h
      by_cases h1 : c = '>'
      · rw [if_pos h1] at h; cases h
      · rw [if_neg h1] at h
        by_cases h2 : c = squote
        · rw [if_pos h2] at h
          rw [List.cons_append]
          simp only [findClosingAngleAux]
          rw [if_neg h1, if_pos h2, ih .single h, utf8Len_cons]
          simp only [Option.map_some']
          congr 1
          omega
        · rw [if_neg h2] at h
          by_cases h3 : c = dquote
          · rw [if_pos h3] at h
            rw [List.cons_append]
            simp only [findClosingAngleAux]
            rw [if_neg h1, if_neg h2, if_pos h3, ih .double h, utf8Len_cons]
            simp only [Option.map_some']
            congr 1
            omega
          · rw [if_neg h3] at h
            rw [List.cons_append]
            simp only [findClosingAngleAux]
            rw [if_neg h1, if_neg h2, if_neg h3, ih .normal h, utf8Len_cons]
            simp only [Option.map_some']
            congr 1
            omega
    | single =>
      simp only [runQ] at h
      by_cases h2 : c = squote
      · rw [if_pos h2] at h
        rw [List.cons_append]
        simp only [findClosingAngleAux]
        rw [if_pos h2, ih .normal h, utf8Len_cons]
        simp only [Option.map_some']
        congr 1
        omega
      · rw [if_neg h2] at h
        rw [List.cons_append]
        simp only [findClosingAngleAux]
        rw [if_neg h2, ih .single h, utf8Len_cons]
        simp only [Option.map_some']
        congr 1
        omega
    | double =>
      simp only [runQ] at h
      by_cases h2 : c = dquote
      · rw [if_pos h2] at h
        rw [List.cons_append]
        simp only [findClosingAngleAux]
        rw [if_pos h2, ih .normal h, utf8Len_cons]
        simp only [Option.map_some']
        congr 1
        omega
      · rw [if_neg h2] at h
        rw [List.cons_append]
        simp only [findClosingAngleAux]
        rw [if_neg h2, ih .double h, utf8Len_cons]
        simp only [Option.map_some']
        congr 1
        omega

theorem closingAngle_sound :
    ∀ (t : List Char) (st : QState) (n : Nat), findClosingAngleAux st t = some n →
      ∃ u v, t = u ++ '>' :: v ∧ n = utf8Len u := by
  intro t
  induction t with
  | nil => intro st n h; cases st <;> cases h
  | cons c s ih =>
    intro st n h
    cases st with
    | normal =>
      by_cases h1 : c = '>'
      · subst h1
        rw [findClosingAngleAux, if_pos rfl] at h
        injection h with h'
        exact ⟨[], s, rfl, h'.symm⟩
      · have hred : findClosingAngleAux .normal (c :: s) =
            (findClosingAngleAux
              (if c = squote then .single else if c = dquote then .double else .normal)
              s).map (fun n => n + c.utf8Size) := by
          by_cases h2 : c = squote
          · subst h2
            simp [findClosingAngleAux, squote_ne_gt]
          · by_cases h3 : c = dquote
            · subst h3
              simp [findClosingAngleAux, dquote_ne_gt, dquote_ne_squote]
            · simp [findClosingAngleAux, h1, h2, h3]
        rw [hred] at h
        obtain ⟨m, hm, hn⟩ := Option.map_eq_some'.mp h
        have hn' : m + c.utf8Size = n := hn
        obtain ⟨u, v, huv, hmu⟩ := ih _ _ hm
        refine ⟨c :: u, v, by simp [huv], ?_⟩
        rw [utf8Len_cons]
        omega
    | single =>
      have hred : findClosingAngleAux .single (c :: s) =
          (findClosingAngleAux (if c = squote then .normal else .single) s).map
            (fun n => n + c.utf8Size) := by
        by_cases h2 : c = squote
        · simp [findClosingAngleAux, h2]
        · simp [findClosingAngleAux, h2]
      rw [hred] at h
      obtain ⟨m, hm, hn⟩ := Option.map_eq_some'.mp h
      have hn' : m + c.utf8Size = n := hn
      obtain ⟨u, v, huv, hmu⟩ := ih _ _ hm
      refine ⟨c :: u, v, by simp [huv], ?_⟩
      rw [utf8Len_cons]
      omega
    | double =>
      have hred : findClosingAngleAux .double (c :: s) =
          (findClosingAngleAux (if c = dquote then .normal else .double) s).map
            (fun n => n + c.utf8Size) := by
        by_cases h2 : c = dquote
        · simp [findClosingAngleAux, h2]
        · simp [findClosingAngleAux, h2]
      rw [hred] at h
      obtain ⟨m, hm, hn⟩ := Option.map_eq_some'.mp h
      have hn' : m + c.utf8Size = n := hn
      obtain ⟨u, v, huv, hmu⟩ := ih _ _ hm
      refine ⟨c :: u, v, by simp [huv], ?_⟩
      rw [utf8Len_cons]
      omega

theorem startsWithSpaceOrGt_append_cons (a : List Char) (x : Char) (r1 r2 : List Char) :
    startsWithSpaceOrGt (a ++ x :: r1) = startsWithSpaceOrGt (a ++ x :: r2) := by
  cases a <;> rfl

/-! Lengths of the literal markers. -/

theorem utf8Len_SCRIPT_START : utf8Len SCRIPT_START = 7 := by decide

theorem utf8Len_SCRIPT_END : utf8Len SCRIPT_END = 9 := by decide

theorem utf8Len_COMMENT_START : utf8Len COMMENT_START = 4 := by decide

theorem utf8Len_COMMENT_END : utf8Len COMMENT_END = 3 := by decide

theorem SCRIPT_START_length : SCRIPT_START.length = 7 := by decide

theorem SCRIPT_END_length : SCRIPT_END.length = 9 := by decide

theorem COMMENT_END_length : COMMENT_END.length = 3 := by decide

theorem gt_utf8Size : ('>' : Char).utf8Size = 1 := by decide

/-! Behaviour of the comment-aware tag finder. -/

theorem findScriptStartGo_accept (s : List Char) (pointer fuel : Nat) (P g r : List Char)
    (hs : s = P ++ (g ++ (SCRIPT_START ++ r)))
    (hno : noCrossOcc SCRIPT_START g (SCRIPT_START ++ r) = true)
    (hacc : acceptAt s (utf8Len P + utf8Len g) = true) :
    findScriptStartGo s pointer (fuel + 1) (utf8Len P) =
      some (utf8Len P + utf8Len g + SCRIPT_START.length - pointer) := by
  have hfind : findSubB SCRIPT_START (dropB s (utf8Len P)) = some (utf8Len g) := by
    rw [hs, dropB_append, ← List.append_assoc]
    exact findSubB_append_self_of_noCrossOcc _ _ _ hno
  simp only [findScriptStartGo, hfind]
  rw [acceptAt] at hacc
  cases hr : rfindSubB COMMENT_START (takeB s (utf8Len P + utf8Len g)) with
  | none => simp only [hr]
  | some cs =>
    simp only [hr] at hacc ⊢
    cases hf : findSubB COMMENT_END (dropB s cs) with
    | none => simp only [hf]
    | some ceRel =>
      simp only [hf] at hacc ⊢
      have hnl : ¬ (utf8Len P + utf8Len g < cs + ceRel) := by
        by_contra hlt
        rw [if_pos hlt] at hacc
        cases hacc
      rw [if_neg hnl]

theorem find_script_start_clean (s : List Char) (P g r : List Char)
    (hs : s = P ++ (g ++ (SCRIPT_START ++ r)))
    (hno : noCrossOcc SCRIPT_START g (SCRIPT_START ++ r) = true)
    (hacc : acceptAt s (utf8Len P + utf8Len g) = true) :
    find_script_start s (utf8Len P) = some (utf8Len g + 7) := by
  rw [find_script_start,
    findScriptStartGo_accept s (utf8Len P) (utf8Len s) P g r hs hno hacc,
    SCRIPT_START_length]
  congr 1
  omega

theorem find_script_start_none (s : List Char) (P tail : List Char)
    (hs : s = P ++ tail) (hnone : findSubB SCRIPT_START tail = none) :
    find_script_start s (utf8Len P) = none := by
  rw [find_script_start, findScriptStartGo, hs, dropB_append, hnone]

/-! One successful driver iteration on a well-formed block. -/

theorem parse_script_step (s : List Char) (fuel pointer : Nat) (P g : List Char) (b : Block)
    (r : List Char) (rel : Nat)
    (hs : s = P ++ (g ++ (renderBlock b ++ r)))
    (hfind : find_script_start s pointer = some rel)
    (hrel : pointer + rel = utf8Len (P ++ g) + 7)
    (hva : validAttrs b.attrs = true)
    (hlang : (SourceType.from_extension (extract_lang_attribute b.attrs)).isSome = true)
    (hbody : noCrossOcc SCRIPT_END b.body (SCRIPT_END ++ r) = true) :
    parse_script s (fuel + 1) pointer =
      some (⟨b.body, expectedType b.attrs, utf8Len (P ++ g ++ SCRIPT_START ++ b.attrs) + 1⟩,
        utf8Len (P ++ g ++ renderBlock b)) := by
  obtain ⟨st0, hst0⟩ := Option.isSome_iff_exists.mp hlang
  rw [validAttrs, Bool.and_eq_true] at hva
  obtain ⟨hva1, hva2d⟩ := hva
  have hva2 : runQ .normal b.attrs = some .normal := of_decide_eq_true hva2d
  have hdrop1 : dropB s (utf8Len (P ++ g) + 7) =
      b.attrs ++ '>' :: (b.body ++ (SCRIPT_END ++ r)) := by
    have hs' : s = (P ++ g ++ SCRIPT_START) ++
        (b.attrs ++ '>' :: (b.body ++ (SCRIPT_END ++ r))) := by
      rw [hs, renderBlock]
      simp [List.append_assoc]
    have hlen : utf8Len (P ++ g ++ SCRIPT_START) = utf8Len (P ++ g) + 7 := by
      simp only [utf8Len_append, utf8Len_SCRIPT_START]
    rw [hs', ← hlen, dropB_append]
  have hsw : startsWithSpaceOrGt (b.attrs ++ '>' :: (b.body ++ (SCRIPT_END ++ r))) = true := by
    rw [startsWithSpaceOrGt_append_cons b.attrs '>' _ []]
    exact hva1
  have hca : find_script_closing_angle s (utf8Len (P ++ g) + 7) = some (utf8Len b.attrs) := by
    rw [find_script_closing_angle, hdrop1]
    exact runQ_closing _ _ _ hva2
  have htake1 : takeB (b.attrs ++ '>' :: (b.body ++ (SCRIPT_END ++ r))) (utf8Len b.attrs) =
      b.attrs := takeB_append _ _
  have hdrop2 : dropB s (utf8Len (P ++ g) + 7 + utf8Len b.attrs + 1) =
      b.body ++ (SCRIPT_END ++ r) := by
    have hs' : s = (P ++ g ++ SCRIPT_START ++ b.attrs ++ ['>']) ++
        (b.body ++ (SCRIPT_END ++ r)) := by
      rw [hs, renderBlock]
      simp [List.append_assoc]
    have hlen : utf8Len (P ++ g ++ SCRIPT_START ++ b.attrs ++ ['>']) =
        utf8Len (P ++ g) + 7 + utf8Len b.attrs + 1 := by
      simp only [utf8Len_append, utf8Len_SCRIPT_START, utf8Len_cons, utf8Len_nil,
        gt_utf8Size]
    rw [hs', ← hlen, dropB_append]
  have hfe : findSubB SCRIPT_END (b.body ++ (SCRIPT_END ++ r)) = some (utf8Len b.body) := by
    rw [← List.append_assoc]
    exact findSubB_append_self_of_noCrossOcc _ _ _ hbody
  have htake2 : takeB (b.body ++ (SCRIPT_END ++ r)) (utf8Len b.body) = b.body :=
    takeB_append _ _
  have hexp : expectedType b.attrs =
      if (extract_lang_attribute b.attrs).contains 'x' then st0
      else st0.with_standard true := by
    simp [expectedType, hst0]
  have hlen1 : utf8Len (P ++ g ++ SCRIPT_START ++ b.attrs) + 1 =
      utf8Len (P ++ g) + 7 + utf8Len b.attrs + 1 := by
    simp only [utf8Len_append, utf8Len_SCRIPT_START]
  have hlen2 : utf8Len (P ++ g ++ renderBlock b) =
      utf8Len (P ++ g) + 7 + utf8Len b.attrs + 1 + utf8Len b.body + SCRIPT_END.length := by
    simp only [renderBlock, utf8Len_append, utf8Len_SCRIPT_START, utf8Len_SCRIPT_END,
      utf8Len_cons, gt_utf8Size, SCRIPT_END_length]
    omega
  rw [parse_script, hfind]
  simp only [hrel, hdrop1, hsw]
  rw [if_neg (by simp : ¬ (true = false))]
  simp only [hca, htake1, hst0, hdrop2, hfe, htake2]
  rw [hexp, hlen1, hlen2]

theorem parse_script_none_of_find_none (s : List Char) (fuel pointer : Nat)
    (h : find_script_start s pointer = none) :
    parse_script s (fuel + 1) pointer = none := by
  simp only [parse_script, h]

theorem renderDoc_length_bound :
    ∀ (blocks : List (List Char × Block)) (tail : List Char),
      blocks.length ≤ utf8Len (renderDoc blocks tail) := by
  intro blocks
  induction blocks with
  | nil => intro tail; simp [renderDoc]
  | cons gb rest ih =>
    intro tail
    obtain ⟨g, b⟩ := gb
    have h1 := ih tail
    have h2 : 0 < utf8Len (renderBlock b) := by
      simp only [renderBlock, utf8Len_append, utf8Len_SCRIPT_START]
      omega
    simp only [renderDoc, List.length_cons, utf8Len_append]
    omega

/-- The driver, run from a cursor position behind which everything is
already consumed, extracts exactly the expected records of a well-formed
remainder. -/
theorem parse_scripts_go_wf (s : List Char) :
    ∀ (blocks : List (List Char × Block)) (P tail : List Char) (ofuel : Nat),
      blocks.length < ofuel →
      s = P ++ renderDoc blocks tail →
      wfFrom s P blocks tail = true →
      parse_scripts_go s ofuel (utf8Len P) = expectedRecords P blocks := by
  intro blocks
  induction blocks with
  | nil =>
    intro P tail ofuel hfuel hs hwf
    obtain ⟨k, hk⟩ : ∃ k, ofuel = k + 1 := ⟨ofuel - 1, by omega⟩
    subst hk
    rw [wfFrom] at hwf
    have hnone : findSubB SCRIPT_START tail = none :=
      Option.isNone_iff_eq_none.mp hwf
    rw [renderDoc] at hs
    simp only [parse_scripts_go,
      parse_script_none_of_find_none s (utf8Len s) (utf8Len P)
        (find_script_start_none s P tail hs hnone)]
    rfl
  | cons gb rest ih =>
    intro P tail ofuel hfuel hs hwf
    obtain ⟨g, b⟩ := gb
    obtain ⟨k, hk⟩ : ∃ k, ofuel = k + 1 := ⟨ofuel - 1, by omega⟩
    subst hk
    rw [wfFrom] at hwf
    simp only [Bool.and_eq_true] at hwf
    obtain ⟨⟨⟨⟨⟨hno, hacc⟩, hva⟩, hlang⟩, hbody⟩, hwf'⟩ := hwf
    rw [renderDoc] at hs
    have hs' : s = P ++ (g ++ (SCRIPT_START ++
        ((b.attrs ++ '>' :: (b.body ++ SCRIPT_END)) ++ renderDoc rest tail))) := by
      rw [hs, renderBlock]
      simp [List.append_assoc]
    have hno' : noCrossOcc SCRIPT_START g (SCRIPT_START ++
        ((b.attrs ++ '>' :: (b.body ++ SCRIPT_END)) ++ renderDoc rest tail)) = true := by
      have heq : renderBlock b ++ renderDoc rest tail =
          SCRIPT_START ++
            ((b.attrs ++ '>' :: (b.body ++ SCRIPT_END)) ++ renderDoc rest tail) := by
        rw [renderBlock]
        simp [List.append_assoc]
      rw [heq] at hno
      exact hno
    have hacc' : acceptAt s (utf8Len P + utf8Len g) = true := by
      rw [← utf8Len_append]
      exact hacc
    have hfind := find_script_start_clean s P g _ hs' hno' hacc'
    have hrel : utf8Len P + (utf8Len g + 7) = utf8Len (P ++ g) + 7 := by
      rw [utf8Len_append]
      omega
    have hstep := parse_script_step s (utf8Len s) (utf8Len P) P g b
      (renderDoc rest tail) (utf8Len g + 7) hs hfind hrel hva hlang hbody
    simp only [parse_scripts_go, hstep]
    rw [expectedRecords,
      ih (P ++ g ++ renderBlock b) tail k
        (by simp only [List.length_cons] at hfuel; omega)
        (by rw [hs]; simp [List.append_assoc])
        hwf']

theorem expectedRecords_length :
    ∀ (blocks : List (List Char × Block)) (P : List Char),
      (expectedRecords P blocks).length = blocks.length := by
  intro blocks
  induction blocks with
  | nil => intro P; rfl
  | cons gb rest ih =>
    intro P
    obtain ⟨g, b⟩ := gb
    simp only [expectedRecords, List.length_cons, ih]

theorem expectedRecords_map_body :
    ∀ (blocks : List (List Char × Block)) (P : List Char),
      (expectedRecords P blocks).map JavaScriptSource.source_text =
        blocks.map (fun x => x.2.body) := by
  intro blocks
  induction blocks with
  | nil => intro P; rfl
  | cons gb rest ih =>
    intro P
    obtain ⟨g, b⟩ := gb
    simp only [expectedRecords, List.map_cons, ih]

theorem expectedRecords_start_lt :
    ∀ (blocks : List (List Char × Block)) (P : List Char) (r : JavaScriptSource),
      r ∈ expectedRecords P blocks → utf8Len P < r.start := by
  intro blocks
  induction blocks with
  | nil =>
    intro P r h
    simp [expectedRecords] at h
  | cons gb rest ih =>
    intro P r h
    obtain ⟨g, b⟩ := gb
    rw [expectedRecords] at h
    rcases List.mem_cons.mp h with h1 | h2
    · subst h1
      show utf8Len P < utf8Len (P ++ g ++ SCRIPT_START ++ b.attrs) + 1
      simp only [utf8Len_append]
      omega
    · have h3 := ih (P ++ g ++ renderBlock b) r h2
      simp only [utf8Len_append] at h3
      omega

theorem expectedRecords_pairwise :
    ∀ (blocks : List (List Char × Block)) (P : List Char),
      List.Pairwise (fun r1 r2 => r1.start < r2.start) (expectedRecords P blocks) := by
  intro blocks
  induction blocks with
  | nil => intro P; exact List.Pairwise.nil
  | cons gb rest ih =>
    intro P
    obtain ⟨g, b⟩ := gb
    rw [expectedRecords]
    refine List.Pairwise.cons ?_ (ih _)
    intro r hr
    have h1 := expectedRecords_start_lt rest (P ++ g ++ renderBlock b) r hr
    have h2 : utf8Len (P ++ g ++ SCRIPT_START ++ b.attrs) + 1 ≤
        utf8Len (P ++ g ++ renderBlock b) := by
      simp only [renderBlock, utf8Len_append, utf8Len_cons, utf8Len_SCRIPT_START,
        utf8Len_SCRIPT_END, gt_utf8Size]
      omega
    show (⟨b.body, expectedType b.attrs,
      utf8Len (P ++ g ++ SCRIPT_START ++ b.attrs) + 1⟩ : JavaScriptSource).start < r.start
    simp only []
    omega

/-! Soundness of the scanner on arbitrary documents: every cursor position
it reaches is a character boundary, and every record it emits is a slice
strictly between a tag's terminating `>` and the next closing marker. -/

theorem findScriptStartGo_sound (s : List Char) (pointer : Nat) :
    ∀ (fuel p rel : Nat), Boundary s p → pointer ≤ p →
      findScriptStartGo s pointer fuel p = some rel →
      ∃ A B, s = A ++ (SCRIPT_START ++ B) ∧ pointer + rel = utf8Len A + 7 ∧
        pointer ≤ utf8Len A := by
  intro fuel
  induction fuel with
  | zero => intro p rel _ _ h; cases h
  | succ fuel ih =>
    intro p rel hb hpp h
    obtain ⟨a, t, hat, hpa⟩ := hb
    have hdrop : dropB s p = t := by rw [hat, hpa, dropB_append]
    cases hfs : findSubB SCRIPT_START (dropB s p) with
    | none =>
      simp only [findScriptStartGo, hfs] at h
      cases h
    | some rel1 =>
      simp only [findScriptStartGo, hfs] at h
      rw [hdrop] at hfs
      obtain ⟨a1, t1, ht1, hrel1⟩ := findSubB_sound SCRIPT_START t rel1 hfs
      have hsA : s = (a ++ a1) ++ (SCRIPT_START ++ t1) := by
        rw [hat, ht1]
        simp [List.append_assoc]
      have hc : p + rel1 = utf8Len (a ++ a1) := by
        rw [utf8Len_append]
        omega
      have htk : takeB s (p + rel1) = a ++ a1 := by
        rw [hc, hsA, takeB_append]
      cases hr : rfindSubB COMMENT_START (takeB s (p + rel1)) with
      | none =>
        simp only [hr] at h
        refine ⟨a ++ a1, t1, hsA, ?_, ?_⟩
        · injection h with h'
          rw [SCRIPT_START_length] at h'
          omega
        · rw [← hc]
          omega
      | some cs =>
        simp only [hr] at h
        rw [htk] at hr
        obtain ⟨a2, t2, ht2, hcs⟩ := rfindSubB_sound COMMENT_START (a ++ a1) cs hr
        cases hf : findSubB COMMENT_END (dropB s cs) with
        | none =>
          simp only [hf] at h
          refine ⟨a ++ a1, t1, hsA, ?_, ?_⟩
          · injection h with h'
            rw [SCRIPT_START_length] at h'
            omega
          · rw [← hc]
            omega
        | some ceRel =>
          simp only [hf] at h
          by_cases hlt : p + rel1 < cs + ceRel
          · rw [if_pos hlt] at h
            have hsw : s = a2 ++ ((COMMENT_START ++ t2) ++ (SCRIPT_START ++ t1)) := by
              rw [hsA, ht2]
              simp [List.append_assoc]
            have hdrop2 : dropB s cs = (COMMENT_START ++ t2) ++ (SCRIPT_START ++ t1) := by
              rw [hcs, hsw, dropB_append]
            rw [hdrop2] at hf
            obtain ⟨a3, t3, ht3, hce⟩ := findSubB_sound COMMENT_END _ ceRel hf
            have hb2 : Boundary s (cs + ceRel + COMMENT_END.length) := by
              refine ⟨(a2 ++ a3) ++ COMMENT_END, t3, ?_, ?_⟩
              · rw [hsw, ht3]
                simp [List.append_assoc]
              · rw [COMMENT_END_length]
                simp only [utf8Len_append, utf8Len_COMMENT_END]
                omega
            exact ih (cs + ceRel + COMMENT_END.length) rel hb2
              (by rw [COMMENT_END_length]; omega) h
          · rw [if_neg hlt] at h
            refine ⟨a ++ a1, t1, hsA, ?_, ?_⟩
            · injection h with h'
              rw [SCRIPT_START_length] at h'
              omega
            · rw [← hc]
              omega

theorem parse_script_sound (s : List Char) :
    ∀ (fuel pointer : Nat) (r : JavaScriptSource) (p2 : Nat),
      Boundary s pointer →
      parse_script s fuel pointer = some (r, p2) →
      (∃ pre suf, s = pre ++ '>' :: (r.source_text ++ (SCRIPT_END ++ suf)) ∧
        r.start = utf8Len pre + 1) ∧
      pointer < r.start ∧ p2 = r.start + utf8Len r.source_text + 9 ∧ Boundary s p2 := by
  intro fuel
  induction fuel with
  | zero => intro pointer r p2 _ h; cases h
  | succ fuel ih =>
    intro pointer r p2 hb h
    cases hfind : find_script_start s pointer with
    | none =>
      simp only [parse_script, hfind] at h
      cases h
    | some rel =>
      obtain ⟨A, B, hAB, hptr, hple⟩ := findScriptStartGo_sound s pointer
        (utf8Len s + 1) pointer rel hb (Nat.le_refl _) hfind
      simp only [parse_script, hfind] at h
      have hb1 : Boundary s (pointer + rel) := by
        refine ⟨A ++ SCRIPT_START, B, ?_, ?_⟩
        · rw [hAB, List.append_assoc]
        · simp only [utf8Len_append, utf8Len_SCRIPT_START]
          omega
      by_cases hsw : startsWithSpaceOrGt (dropB s (pointer + rel)) = false
      · rw [if_pos hsw] at h
        obtain ⟨hdec, hlt, hp2, hb2⟩ := ih (pointer + rel) r p2 hb1 h
        exact ⟨hdec, by omega, hp2, hb2⟩
      · rw [if_neg hsw] at h
        cases hca : find_script_closing_angle s (pointer + rel) with
        | none =>
          simp only [hca] at h
          cases h
        | some offset =>
          simp only [hca] at h
          have hdropPB : dropB s (pointer + rel) = B := by
            have h1 : utf8Len (A ++ SCRIPT_START) = pointer + rel := by
              simp only [utf8Len_append, utf8Len_SCRIPT_START]
              omega
            rw [hAB, ← List.append_assoc, ← h1, dropB_append]
          have hca' : findClosingAngleAux .normal B = some offset := by
            rw [find_script_closing_angle, hdropPB] at hca
            exact hca
          obtain ⟨u, v, huv, hoff⟩ := closingAngle_sound B .normal offset hca'
          have hsplit : s = (A ++ SCRIPT_START ++ u ++ ['>']) ++ v := by
            rw [hAB, huv]
            simp [List.append_assoc]
          have hjs : pointer + rel + offset + 1 =
              utf8Len (A ++ SCRIPT_START ++ u ++ ['>']) := by
            simp only [utf8Len_append, utf8Len_SCRIPT_START, utf8Len_cons, utf8Len_nil,
              gt_utf8Size]
            omega
          have hb2 : Boundary s (pointer + rel + offset + 1) :=
            ⟨A ++ SCRIPT_START ++ u ++ ['>'], v, hsplit, hjs⟩
          cases hst : SourceType.from_extension
              (extract_lang_attribute (takeB (dropB s (pointer + rel)) offset)) with
          | none =>
            simp only [hst] at h
            obtain ⟨hdec, hlt, hp2, hb3⟩ := ih (pointer + rel + offset + 1) r p2 hb2 h
            exact ⟨hdec, by omega, hp2, hb3⟩
          | some st0 =>
            simp only [hst] at h
            cases hfe : findSubB SCRIPT_END (dropB s (pointer + rel + offset + 1)) with
            | none =>
              simp only [hfe] at h
              cases h
            | some end_offset =>
              simp only [hfe] at h
              have hdropJS : dropB s (pointer + rel + offset + 1) = v := by
                rw [hsplit, hjs, dropB_append]
              rw [hdropJS] at hfe
              obtain ⟨body1, suf, hbs, hend⟩ := findSubB_sound SCRIPT_END v end_offset hfe
              have htake : takeB v end_offset = body1 := by
                rw [hbs, hend, List.append_assoc, takeB_append]
              rw [hdropJS, htake] at h
              rw [Option.some.injEq, Prod.mk.injEq] at h
              obtain ⟨hr1, hp1⟩ := h
              subst hr1
              subst hp1
              dsimp only
              refine ⟨⟨A ++ SCRIPT_START ++ u, suf, ?_, ?_⟩, ?_, ?_, ?_⟩
              · rw [hsplit, hbs]
                simp [List.append_assoc]
              · simp only [utf8Len_append, utf8Len_SCRIPT_START]
                omega
              · omega
              · rw [SCRIPT_END_length]
                omega
              · refine ⟨(A ++ SCRIPT_START ++ u ++ ['>']) ++ body1 ++ SCRIPT_END, suf,
                  ?_, ?_⟩
                · rw [hsplit, hbs]
                  simp [List.append_assoc]
                · rw [SCRIPT_END_length]
                  simp only [utf8Len_append, utf8Len_SCRIPT_START, utf8Len_SCRIPT_END,
                    utf8Len_cons, utf8Len_nil, gt_utf8Size]
                  omega


theorem parse_scripts_go_sound (s : List Char) :
    ∀ (ofuel pointer : Nat), Boundary s pointer →
      ∀ r ∈ parse_scripts_go s ofuel pointer,
        ∃ pre suf, s = pre ++ '>' :: (r.source_text ++ (SCRIPT_END ++ suf)) ∧
          r.start = utf8Len pre + 1 := by
  intro ofuel
  induction ofuel with
  | zero =>
    intro pointer _ r h
    simp [parse_scripts_go] at h
  | succ ofuel ih =>
    intro pointer hb r hr
    cases hps : parse_script s (utf8Len s + 1) pointer with
    | none =>
      simp only [parse_scripts_go, hps] at hr
      simp at hr
    | some rp =>
      obtain ⟨r1, p2⟩ := rp
      simp only [parse_scripts_go, hps] at hr
      obtain ⟨hdec, _, _, hb2⟩ := parse_script_sound s (utf8Len s + 1) pointer r1 p2 hb hps
      rcases List.mem_cons.mp hr with h1 | h2
      · subst h1
        exact hdec
      · exact ih p2 hb2 r h2

/-! The claim theorems. -/

/-- C1 (confirmed): for every well-formed document containing N script
tags — each with a recognized language, each accepted outside any HTML
comment, and each terminated by a closing marker — `parse` returns exactly
N `JavaScriptSource` records, one per block in document order (the n-th
record's body is the n-th block's body), with strictly increasing `start`
offsets. -/
theorem parse_wellformed_count_and_order (blocks : List (List Char × Block))
    (tail : List Char)
    (hwf : wfFrom (renderDoc blocks tail) [] blocks tail = true) :
    parse (renderDoc blocks tail) = expectedRecords [] blocks ∧
    (parse (renderDoc blocks tail)).length = blocks.length ∧
    (parse (renderDoc blocks tail)).map JavaScriptSource.source_text =
      blocks.map (fun x => x.2.body) ∧
    List.Pairwise (fun r1 r2 => r1.start < r2.start) (parse (renderDoc blocks tail)) := by
  have hbound : blocks.length < utf8Len (renderDoc blocks tail) + 1 := by
    have := renderDoc_length_bound blocks tail
    omega
  have hmain : parse_scripts_go (renderDoc blocks tail)
      (utf8Len (renderDoc blocks tail) + 1) (utf8Len ([] : List Char)) =
      expectedRecords [] blocks :=
    parse_scripts_go_wf (renderDoc blocks tail) blocks [] tail _ hbound (by simp) hwf
  have hparse : parse (renderDoc blocks tail) = expectedRecords [] blocks := hmain
  refine ⟨hparse, ?_, ?_, ?_⟩
  · rw [hparse, expectedRecords_length]
  · rw [hparse, expectedRecords_map_body]
  · rw [hparse]
    exact expectedRecords_pairwise blocks []

/-- Witness for C1: the spec's example `<script>a</script><script>b</script>`
is well formed with two blocks, and `parse` returns two records. -/
theorem parse_wellformed_count_and_order_witness :
    wfFrom (renderDoc [([], ⟨[], "a".data⟩), ([], ⟨[], "b".data⟩)] []) []
      [([], ⟨[], "a".data⟩), ([], ⟨[], "b".data⟩)] [] = true ∧
    (parse (renderDoc [([], ⟨[], "a".data⟩), ([], ⟨[], "b".data⟩)] [])).length =
      [(([] : List Char), (⟨[], "a".data⟩ : Block)), ([], ⟨[], "b".data⟩)].length :=
  ⟨by decide,
   (parse_wellformed_count_and_order
     [([], ⟨[], "a".data⟩), ([], ⟨[], "b".data⟩)] [] (by decide)).2.1⟩

/-- C2 (confirmed): every record produced by `parse` starts exactly at the
byte length of the document prefix ending with that tag's terminating `>`
(the body begins immediately after the `>`), and the body text lies
strictly between that `>` and the closing marker, so it includes neither
delimiter. -/
theorem parse_record_offsets (s : List Char) (r : JavaScriptSource)
    (hr : r ∈ parse s) :
    ∃ pre suf, s = (pre ++ ['>']) ++ (r.source_text ++ (SCRIPT_END ++ suf)) ∧
      r.start = utf8Len (pre ++ ['>']) := by
  obtain ⟨pre, suf, hsplit, hstart⟩ :=
    parse_scripts_go_sound s (utf8Len s + 1) 0 ⟨[], s, rfl, rfl⟩ r hr
  refine ⟨pre, suf, ?_, ?_⟩
  · rw [hsplit]
    simp [List.append_assoc]
  · rw [hstart]
    simp only [utf8Len_append, utf8Len_cons, utf8Len_nil, gt_utf8Size]

theorem drop_big_eq_nil (l : List α) (i : Nat) (h : l.length ≤ i) : l.drop i = [] :=
  List.drop_eq_nil_of_le h

theorem leadsWith_bounded_to_unbounded (pat l : List Char) (hp : pat ≠ [])
    (h : ∀ i, i < l.length → 1 ≤ i → leadsWith pat (l.drop i) = false) :
    ∀ i, 1 ≤ i → leadsWith pat (l.drop i) = false := by
  intro i h1
  by_cases h2 : i < l.length
  · exact h i h2 h1
  · rw [drop_big_eq_nil l i (by omega)]
    cases pat with
    | nil => exact absurd rfl hp
    | cons c cs => rfl

/-- The Comment-Aware Tag Finder, started at the top of a document whose
first `<script` occurrence is enclosed in an HTML comment, discards that
candidate and retries just past the comment's end marker, accepting the
next genuine occurrence. -/
theorem find_script_start_skip (s pre m1 m2 rest g2 r2 : List Char)
    (hs : s = pre ++ (COMMENT_START ++ (m1 ++ (SCRIPT_START ++
      (m2 ++ (COMMENT_END ++ rest))))))
    (hrest : rest = g2 ++ (SCRIPT_START ++ r2))
    (h1 : noCrossOcc SCRIPT_START (pre ++ COMMENT_START ++ m1)
      (SCRIPT_START ++ (m2 ++ (COMMENT_END ++ rest))) = true)
    (h2 : ∀ i, 1 ≤ i → leadsWith COMMENT_START ((COMMENT_START ++ m1).drop i) = false)
    (h3 : noCrossOcc COMMENT_END (COMMENT_START ++ m1 ++ SCRIPT_START ++ m2)
      (COMMENT_END ++ rest) = true)
    (h4 : noCrossOcc SCRIPT_START g2 (SCRIPT_START ++ r2) = true)
    (h5 : acceptAt s (utf8Len (pre ++ COMMENT_START ++ m1 ++ SCRIPT_START ++ m2 ++
      COMMENT_END ++ g2)) = true) :
    find_script_start s 0 =
      some (utf8Len (pre ++ COMMENT_START ++ m1 ++ SCRIPT_START ++ m2 ++
        COMMENT_END ++ g2) + 7) := by
  have hsA : s = (pre ++ COMMENT_START ++ m1) ++ SCRIPT_START ++
      (m2 ++ (COMMENT_END ++ rest)) := by
    rw [hs]
    simp [List.append_assoc]
  have hfs : findSubB SCRIPT_START (dropB s 0) =
      some (utf8Len (pre ++ COMMENT_START ++ m1)) := by
    rw [dropB_zero, hsA]
    exact findSubB_append_self_of_noCrossOcc _ _ _ h1
  rw [find_script_start]
  simp only [findScriptStartGo, hfs, Nat.zero_add]
  have htk : takeB s (utf8Len (pre ++ COMMENT_START ++ m1)) =
      pre ++ COMMENT_START ++ m1 := by
    rw [hsA, List.append_assoc, takeB_append]
  have hrf : rfindSubB COMMENT_START (takeB s (utf8Len (pre ++ COMMENT_START ++ m1))) =
      some (utf8Len pre) := by
    rw [htk, List.append_assoc]
    exact rfindSubB_last COMMENT_START m1 (by decide) h2 pre
  simp only [hrf]
  have hdropPre : dropB s (utf8Len pre) =
      (COMMENT_START ++ m1 ++ SCRIPT_START ++ m2) ++ (COMMENT_END ++ rest) := by
    have hsp : s = pre ++ ((COMMENT_START ++ m1 ++ SCRIPT_START ++ m2) ++
        (COMMENT_END ++ rest)) := by
      rw [hs]
      simp [List.append_assoc]
    rw [hsp, dropB_append]
  have hfc : findSubB COMMENT_END (dropB s (utf8Len pre)) =
      some (utf8Len (COMMENT_START ++ m1 ++ SCRIPT_START ++ m2)) := by
    rw [hdropPre, ← List.append_assoc]
    exact findSubB_append_self_of_noCrossOcc _ _ _ h3
  simp only [hfc]
  rw [if_pos (by
    simp only [utf8Len_append, utf8Len_COMMENT_START, utf8Len_SCRIPT_START]
    omega)]
  have hpos : utf8Len pre + utf8Len (COMMENT_START ++ m1 ++ SCRIPT_START ++ m2) +
      COMMENT_END.length =
      utf8Len (pre ++ COMMENT_START ++ m1 ++ SCRIPT_START ++ m2 ++ COMMENT_END) := by
    rw [COMMENT_END_length]
    simp only [utf8Len_append, utf8Len_COMMENT_END]
    omega
  rw [hpos]
  obtain ⟨k, hk⟩ : ∃ k, utf8Len s = k + 1 := by
    refine ⟨utf8Len s - 1, ?_⟩
    have : 1 ≤ utf8Len s := by
      rw [hs]
      simp only [utf8Len_append, utf8Len_COMMENT_START]
      omega
    omega
  rw [hk]
  have hs2 : s = (pre ++ COMMENT_START ++ m1 ++ SCRIPT_START ++ m2 ++ COMMENT_END) ++
      (g2 ++ (SCRIPT_START ++ r2)) := by
    rw [hs, hrest]
    simp [List.append_assoc]
  have hacc2 : acceptAt s
      (utf8Len (pre ++ COMMENT_START ++ m1 ++ SCRIPT_START ++ m2 ++ COMMENT_END) +
        utf8Len g2) = true := by
    rw [← utf8Len_append]
    exact h5
  rw [findScriptStartGo_accept s 0 k _ g2 r2 hs2 h4 hacc2, SCRIPT_START_length]
  congr 1
  simp only [utf8Len_append]
  omega

/-- C3 (confirmed): a `<script>` occurrence fully enclosed in an HTML
comment never produces a record — the finder discards the candidate and
retries just past the enclosing comment's end marker — and a later genuine
`<script>` tag is still matched and extracted. -/
theorem comment_enclosed_script_skipped (s pre m1 m2 g2 tail : List Char) (b : Block)
    (hs : s = pre ++ (COMMENT_START ++ (m1 ++ (SCRIPT_START ++ (m2 ++ (COMMENT_END ++
      (g2 ++ (renderBlock b ++ tail))))))))
    (h1 : noCrossOcc SCRIPT_START (pre ++ COMMENT_START ++ m1)
      (SCRIPT_START ++ (m2 ++ (COMMENT_END ++ (g2 ++ (renderBlock b ++ tail))))) = true)
    (h2 : ∀ i, i < (COMMENT_START ++ m1).length → 1 ≤ i →
      leadsWith COMMENT_START ((COMMENT_START ++ m1).drop i) = false)
    (h3 : noCrossOcc COMMENT_END (COMMENT_START ++ m1 ++ SCRIPT_START ++ m2)
      (COMMENT_END ++ (g2 ++ (renderBlock b ++ tail))) = true)
    (h4 : noCrossOcc SCRIPT_START g2 (renderBlock b ++ tail) = true)
    (h5 : acceptAt s (utf8Len (pre ++ COMMENT_START ++ m1 ++ SCRIPT_START ++ m2 ++
      COMMENT_END ++ g2)) = true)
    (h6 : validAttrs b.attrs = true)
    (h7 : (SourceType.from_extension (extract_lang_attribute b.attrs)).isSome = true)
    (h8 : noCrossOcc SCRIPT_END b.body (SCRIPT_END ++ tail) = true)
    (h9 : findSubB SCRIPT_START tail = none) :
    find_script_start s 0 = some (utf8Len (pre ++ COMMENT_START ++ m1 ++ SCRIPT_START ++
      m2 ++ COMMENT_END ++ g2) + 7) ∧
    parse s = [⟨b.body, expectedType b.attrs,
      utf8Len (pre ++ COMMENT_START ++ m1 ++ SCRIPT_START ++ m2 ++ COMMENT_END ++ g2 ++
        SCRIPT_START ++ b.attrs) + 1⟩] := by
  have hblock : renderBlock b ++ tail = SCRIPT_START ++
      ((b.attrs ++ '>' :: (b.body ++ SCRIPT_END)) ++ tail) := by
    rw [renderBlock]
    simp [List.append_assoc]
  have h4' : noCrossOcc SCRIPT_START g2 (SCRIPT_START ++
      ((b.attrs ++ '>' :: (b.body ++ SCRIPT_END)) ++ tail)) = true := by
    rw [← hblock]
    exact h4
  have hrest : g2 ++ (renderBlock b ++ tail) = g2 ++ (SCRIPT_START ++
      ((b.attrs ++ '>' :: (b.body ++ SCRIPT_END)) ++ tail)) := by
    rw [hblock]
  have h2u := leadsWith_bounded_to_unbounded COMMENT_START (COMMENT_START ++ m1)
    (by decide) (fun i hi h1i => h2 i hi h1i)
  have hfind := find_script_start_skip s pre m1 m2 (g2 ++ (renderBlock b ++ tail)) g2
    ((b.attrs ++ '>' :: (b.body ++ SCRIPT_END)) ++ tail) hs hrest h1 h2u h3 h4' h5
  refine ⟨hfind, ?_⟩
  have hsstep : s = (pre ++ COMMENT_START ++ m1 ++ SCRIPT_START ++ m2 ++ COMMENT_END) ++
      (g2 ++ (renderBlock b ++ tail)) := by
    rw [hs]
    simp [List.append_assoc]
  have hrel : 0 + (utf8Len (pre ++ COMMENT_START ++ m1 ++ SCRIPT_START ++ m2 ++
      COMMENT_END ++ g2) + 7) =
      utf8Len ((pre ++ COMMENT_START ++ m1 ++ SCRIPT_START ++ m2 ++ COMMENT_END) ++
        g2) + 7 := by
    omega
  have hstep := parse_script_step s (utf8Len s) 0
    (pre ++ COMMENT_START ++ m1 ++ SCRIPT_START ++ m2 ++ COMMENT_END) g2 b tail
    (utf8Len (pre ++ COMMENT_START ++ m1 ++ SCRIPT_START ++ m2 ++ COMMENT_END ++ g2) + 7)
    hsstep hfind hrel h6 h7 h8
  rw [parse]
  simp only [parse_scripts_go, hstep]
  obtain ⟨k, hk⟩ : ∃ k, utf8Len s = k + 1 := by
    refine ⟨utf8Len s - 1, ?_⟩
    have : 1 ≤ utf8Len s := by
      rw [hs]
      simp only [utf8Len_append, utf8Len_COMMENT_START]
      omega
    omega
  rw [hk]
  have hsend : s = ((pre ++ COMMENT_START ++ m1 ++ SCRIPT_START ++ m2 ++ COMMENT_END) ++
      g2 ++ renderBlock b) ++ tail := by
    rw [hs]
    simp [List.append_assoc]
  simp only [parse_scripts_go,
    parse_script_none_of_find_none s (utf8Len s) _
      (find_script_start_none s _ tail hsend h9)]

/-- Witness for C3: the spec's example
`<!-- <script>a</script> --><script>b</script>` yields exactly one record,
body `b`, with `start` pointing past the comment. -/
theorem comment_enclosed_script_skipped_witness :
    parse ("<!-- <script>a</script> --><script>b</script>".data) =
      [⟨"b".data, ⟨.javascript, true, false⟩, 35⟩] := by
  have h := comment_enclosed_script_skipped
    ("<!-- <script>a</script> --><script>b</script>".data)
    [] (" ".data) (">a</script> ".data) [] [] ⟨[], "b".data⟩
    (by decide) (by decide) (by decide) (by decide) (by decide) (by decide)
    (by decide) (by decide) (by decide) (by decide)
  rw [h.2]
  decide
theorem parse_record_offsets_witness :
    (⟨"a".data, ⟨.javascript, true, false⟩, 8⟩ : JavaScriptSource) ∈
      parse ("<script>a</script>".data) ∧
    ∃ pre suf, "<script>a</script>".data = (pre ++ ['>']) ++
      ((⟨"a".data, ⟨.javascript, true, false⟩, 8⟩ : JavaScriptSource).source_text ++
        (SCRIPT_END ++ suf)) ∧
      (⟨"a".data, ⟨.javascript, true, false⟩, 8⟩ : JavaScriptSource).start =
        utf8Len (pre ++ ['>']) :=
  ⟨by decide, parse_record_offsets ("<script>a</script>".data) _ (by decide)⟩

theorem runQ_append : ∀ (a b : List Char) (st : QState),
    runQ st (a ++ b) = (runQ st a).bind (fun st2 => runQ st2 b) := by
  intro a
  induction a with
  | nil => intro b st; cases st <;> rfl
  | cons c as ih =>
    intro b st
    cases st with
    | normal =>
      by_cases h1 : c = '>'
      · simp [runQ, h1]
      · by_cases h2 : c = squote
        · simp [runQ, h1, h2, ih, squote_ne_gt]
        · by_cases h3 : c = dquote
          · simp [runQ, h1, h2, h3, ih, dquote_ne_gt, dquote_ne_squote]
          · simp [runQ, h1, h2, h3, ih]
    | single =>
      by_cases h2 : c = squote
      · simp [runQ, h2, ih]
      · simp [runQ, h2, ih]
    | double =>
      by_cases h2 : c = dquote
      · simp [runQ, h2, ih]
      · simp [runQ, h2, ih]

theorem runQ_single_span : ∀ inner : List Char, (∀ c ∈ inner, c ≠ squote) →
    runQ .single inner = some .single := by
  intro inner
  induction inner with
  | nil => intro _; rfl
  | cons c cs ih =>
    intro h
    have hc : ¬ c = squote := h c (List.mem_cons_self c cs)
    simp only [runQ, if_neg hc]
    exact ih (fun d hd => h d (List.mem_cons_of_mem c hd))

theorem runQ_double_span : ∀ inner : List Char, (∀ c ∈ inner, c ≠ dquote) →
    runQ .double inner = some .double := by
  intro inner
  induction inner with
  | nil => intro _; rfl
  | cons c cs ih =>
    intro h
    have hc : ¬ c = dquote := h c (List.mem_cons_self c cs)
    simp only [runQ, if_neg hc]
    exact ih (fun d hd => h d (List.mem_cons_of_mem c hd))

theorem runQ_normal_squote (s : List Char) :
    runQ .normal (squote :: s) = runQ .single s := by
  simp [runQ, squote_ne_gt]

theorem runQ_normal_dquote (s : List Char) :
    runQ .normal (dquote :: s) = runQ .double s := by
  simp [runQ, dquote_ne_gt, dquote_ne_squote]

theorem runQ_single_squote (s : List Char) :
    runQ .single (squote :: s) = runQ .normal s := by
  simp [runQ]

theorem runQ_double_dquote (s : List Char) :
    runQ .double (dquote :: s) = runQ .normal s := by
  simp [runQ]

theorem runQ_quoted_attrs (q : Char) (preA inner postA : List Char)
    (hq : q = squote ∨ q = dquote)
    (hpre : runQ .normal preA = some .normal)
    (hinner : ∀ c ∈ inner, c ≠ q)
    (hpost : runQ .normal postA = some .normal) :
    runQ .normal (preA ++ (q :: inner) ++ (q :: postA)) = some .normal := by
  rw [List.append_assoc, runQ_append, hpre]
  show runQ .normal ((q :: inner) ++ (q :: postA)) = some .normal
  rcases hq with hq | hq
  · subst hq
    rw [List.cons_append, runQ_normal_squote, runQ_append, runQ_single_span inner hinner]
    show runQ .single (squote :: postA) = some .normal
    rw [runQ_single_squote]
    exact hpost
  · subst hq
    rw [List.cons_append, runQ_normal_dquote, runQ_append, runQ_double_span inner hinner]
    show runQ .double (dquote :: postA) = some .normal
    rw [runQ_double_dquote]
    exact hpost

/-- C4 (confirmed): a `>` inside a single- or double-quoted attribute value
does not terminate the tag-boundary scan — for any attribute text whose
quoted span may contain `>` freely, the scanner still finds the real
terminating `>` — and the spec's example
`<script description='PI > 5'>a</script>` yields one record with body `a`. -/
theorem quoted_gt_does_not_end_tag :
    (∀ (q : Char) (preA inner postA rest : List Char),
      q = squote ∨ q = dquote →
      runQ .normal preA = some .normal →
      (∀ c ∈ inner, c ≠ q) →
      runQ .normal postA = some .normal →
      findClosingAngleAux .normal
        ((preA ++ (q :: inner) ++ (q :: postA)) ++ '>' :: rest) =
        some (utf8Len (preA ++ (q :: inner) ++ (q :: postA)))) ∧
    parse ("<script description=\x27PI > 5\x27>a</script>".data) =
      [⟨"a".data, ⟨.javascript, true, false⟩, 29⟩] := by
  constructor
  · intro q preA inner postA rest hq hpre hinner hpost
    exact runQ_closing rest _ .normal
      (runQ_quoted_attrs q preA inner postA hq hpre hinner hpost)
  · decide

/-- Witness for C4: the quoted span `PI > 5` (which contains `>`) does not
end the tag of the example input. -/
theorem quoted_gt_does_not_end_tag_witness :
    ("PI > 5".data.contains '>' = true) ∧
    findClosingAngleAux .normal
      ((" description=".data ++ (squote :: "PI > 5".data) ++ (squote :: [])) ++
        '>' :: ("a</script>".data)) =
      some (utf8Len (" description=".data ++ (squote :: "PI > 5".data) ++
        (squote :: []))) :=
  ⟨by decide,
   quoted_gt_does_not_end_tag.1 squote (" description=".data) ("PI > 5".data) []
     ("a</script>".data) (Or.inl rfl) (by decide) (by decide) (by decide)⟩

/-- C5 (confirmed): when the character after an accepted `<script`
occurrence is neither a space nor `>` (e.g. `<script-view`), that
occurrence produces no record and the scan resumes immediately after the
rejected occurrence; a later genuine `<script>` tag is still matched, as on
the spec's example `<template><script-view /></template><script>a</script>`. -/
theorem script_lookalike_rejected :
    (∀ (s : List Char) (fuel pointer rel : Nat),
      find_script_start s pointer = some rel →
      startsWithSpaceOrGt (dropB s (pointer + rel)) = false →
      parse_script s (fuel + 1) pointer = parse_script s fuel (pointer + rel)) ∧
    parse ("<template><script-view /></template><script>a</script>".data) =
      [⟨"a".data, ⟨.javascript, true, false⟩, 44⟩] := by
  constructor
  · intro s fuel pointer rel hfind hsw
    simp only [parse_script, hfind]
    rw [if_pos hsw]
  · decide

/-- Witness for C5: on the spec's example the `<script` occurrence inside
`<script-view` is found at offset 10, rejected, and the scan resumes right
after the rejected occurrence (byte 17). -/
theorem script_lookalike_rejected_witness :
    parse_script ("<template><script-view /></template><script>a</script>".data)
        (2 + 1) 0 =
      parse_script ("<template><script-view /></template><script>a</script>".data) 2
        (0 + 17) :=
  script_lookalike_rejected.1
    ("<template><script-view /></template><script>a</script>".data) 2 0 17
    (by decide) (by decide)

/-- C6 (confirmed): an absent (or malformed) `lang` attribute yields the
default token `mjs` and hence the default plain ECMAScript-module, non-JSX
descriptor; a resolvable token without the letter `x` (e.g. `cjs`) gets its
JSX-variant flag forced to false regardless of the registry's default; a
token containing `x` (e.g. `tsx`) keeps the registry's descriptor
unmodified. -/
theorem lang_descriptor_normalization :
    (∀ content : List Char, findSubB ("lang".data) (trimC content) = none →
      extract_lang_attribute content = "mjs".data) ∧
    (∀ attrs : List Char, extract_lang_attribute attrs = "mjs".data →
      expectedType attrs = ⟨.javascript, true, false⟩) ∧
    (∀ (attrs lang : List Char) (st0 : SourceType),
      extract_lang_attribute attrs = lang →
      SourceType.from_extension lang = some st0 → lang.contains 'x' = false →
      expectedType attrs = st0.with_standard true ∧ (expectedType attrs).jsx = false) ∧
    (∀ (attrs lang : List Char) (st0 : SourceType),
      extract_lang_attribute attrs = lang →
      SourceType.from_extension lang = some st0 → lang.contains 'x' = true →
      expectedType attrs = st0) ∧
    parse ("<script>a</script>".data) =
      [⟨"a".data, ⟨.javascript, true, false⟩, 8⟩] ∧
    parse ("<script lang=\x27cjs\x27>a</script>".data) =
      [⟨"a".data, ⟨.javascript, false, false⟩, 19⟩] ∧
    parse ("<script lang=\x27tsx\x27>a</script>".data) =
      [⟨"a".data, ⟨.typescript, true, true⟩, 19⟩] := by
  refine ⟨?_, ?_, ?_, ?_, by decide, by decide, by decide⟩
  · intro content h
    simp only [extract_lang_attribute, h]
  · intro attrs h
    simp only [expectedType, h]
    decide
  · intro attrs lang st0 hl hst hx
    subst hl
    simp only [expectedType, hst, hx]
    constructor
    · rfl
    · simp [SourceType.with_standard]
  · intro attrs lang st0 hl hst hx
    subst hl
    simp only [expectedType, hst, hx]
    rfl

/-- Witness for C6: the `cjs` token (registry default permits JSX) is
demoted to a non-JSX descriptor. -/
theorem lang_descriptor_normalization_witness :
    expectedType (" lang=\x27cjs\x27".data) =
      SourceType.with_standard ⟨.javascript, false, true⟩ true ∧
    (expectedType (" lang=\x27cjs\x27".data)).jsx = false :=
  lang_descriptor_normalization.2.2.1 (" lang=\x27cjs\x27".data) ("cjs".data)
    ⟨.javascript, false, true⟩ (by decide) (by decide) (by decide)

/-- C7 (confirmed): a script block whose language token the registry does
not recognize produces no record and no body extraction: the driver
advances the cursor just past the tag's terminating `>` and resumes
scanning, so subsequent blocks are still extracted (`xxx` examples). -/
theorem unrecognized_lang_block_dropped :
    (∀ (s : List Char) (fuel pointer rel offset : Nat),
      find_script_start s pointer = some rel →
      startsWithSpaceOrGt (dropB s (pointer + rel)) = true →
      find_script_closing_angle s (pointer + rel) = some offset →
      SourceType.from_extension (extract_lang_attribute
        (takeB (dropB s (pointer + rel)) offset)) = none →
      parse_script s (fuel + 1) pointer =
        parse_script s fuel (pointer + rel + offset + 1)) ∧
    parse ("<script lang=\x27xxx\x27>debugger</script>".data) = [] ∧
    parse ("<script lang=\x27xxx\x27>debugger</script><script>b</script>".data) =
      [⟨"b".data, ⟨.javascript, true, false⟩, 44⟩] := by
  refine ⟨?_, by decide, by decide⟩
  intro s fuel pointer rel offset hfind hsw hca hst
  simp only [parse_script, hfind]
  rw [if_neg (by simp [hsw])]
  simp only [hca, hst]

/-- Witness for C7: the single `xxx` block is dropped with the cursor
placed just past its tag's `>` (byte 19). -/
theorem unrecognized_lang_block_dropped_witness :
    parse_script ("<script lang=\x27xxx\x27>debugger</script>".data) (1 + 1) 0 =
      parse_script ("<script lang=\x27xxx\x27>debugger</script>".data) 1
        (0 + 7 + 11 + 1) :=
  unrecognized_lang_block_dropped.1
    ("<script lang=\x27xxx\x27>debugger</script>".data) 1 0 7 11
    (by decide) (by decide) (by decide) (by decide)

/-- C8 (confirmed): when no closing marker follows a script tag's `>`, the
driver iteration returns nothing and the whole scan stops: previously
collected records are kept, no further content is examined; a document with
only that one unterminated tag yields the empty sequence. -/
theorem unterminated_tag_stops_scan :
    (∀ (s : List Char) (fuel pointer rel offset : Nat) (st0 : SourceType),
      find_script_start s pointer = some rel →
      startsWithSpaceOrGt (dropB s (pointer + rel)) = true →
      find_script_closing_angle s (pointer + rel) = some offset →
      SourceType.from_extension (extract_lang_attribute
        (takeB (dropB s (pointer + rel)) offset)) = some st0 →
      findSubB SCRIPT_END (dropB s (pointer + rel + offset + 1)) = none →
      parse_script s (fuel + 1) pointer = none) ∧
    (∀ (s : List Char) (ofuel pointer : Nat),
      parse_script s (utf8Len s + 1) pointer = none →
      parse_scripts_go s (ofuel + 1) pointer = []) ∧
    parse ("<script>x".data) = [] ∧
    parse ("<script>a</script><script>b".data) =
      [⟨"a".data, ⟨.javascript, true, false⟩, 8⟩] := by
  refine ⟨?_, ?_, by decide, by decide⟩
  · intro s fuel pointer rel offset st0 hfind hsw hca hst hfe
    simp only [parse_script, hfind]
    rw [if_neg (by simp [hsw])]
    simp only [hca, hst, hfe]
  · intro s ofuel pointer h
    simp only [parse_scripts_go, h]

/-- Witness for C8: `<script>x` has no closing marker, so the iteration
returns nothing. -/
theorem unterminated_tag_stops_scan_witness :
    parse_script ("<script>x".data) (1 + 1) 0 = none :=
  unterminated_tag_stops_scan.1 ("<script>x".data) 1 0 7 0
    ⟨.javascript, true, true⟩ (by decide) (by decide) (by decide) (by decide)
    (by decide)

/-- C9 (confirmed): a script block with `type="application/json"` or
`name="json"` and no `lang` attribute is not skipped or specially
detected: its interior contains no `lang` substring, so the default token
`mjs` applies, and the block is extracted with the default plain-module
descriptor and the raw JSON text as its body. -/
theorem json_script_extracted_normally :
    parse ("<script type=\"application/json\">\x7b\"a\":1\x7d</script>".data) =
      [⟨"\x7b\"a\":1\x7d".data, ⟨.javascript, true, false⟩, 32⟩] ∧
    parse ("<script name=\"json\">\x7b\"b\":2\x7d</script>".data) =
      [⟨"\x7b\"b\":2\x7d".data, ⟨.javascript, true, false⟩, 20⟩] ∧
    extract_lang_attribute (" type=\"application/json\"".data) = "mjs".data ∧
    extract_lang_attribute (" name=\"json\"".data) = "mjs".data := by
  refine ⟨by decide, by decide, by decide, by decide⟩

/-- Counterexample for C10: the interior text `lang=''` carries a present,
well-delimited but empty attribute value, and the extractor returns the
empty token — so the token is not always non-empty; the whole block is then
dropped by the registry. -/
theorem lang_token_empty_counterexample :
    extract_lang_attribute ("lang=\x27\x27".data) = [] ∧
    parse ("<script lang=\x27\x27>a</script>".data) = [] := by
  refine ⟨by decide, by decide⟩

/-- C10 (corrected, amended): the attribute token extractor returns either
the literal default `mjs` — in particular whenever the `lang` attribute is
absent or malformed (no `=`, nothing after `=`, or an unmatched quote) —
or the attribute's exact value, a (possibly empty) infix of the trimmed
tag-interior text. The default is never empty, but a present and
well-delimited empty value (e.g. `lang=''`) yields the empty token. -/
theorem lang_token_default_or_value :
    ∀ content : List Char,
      extract_lang_attribute content = "mjs".data ∨
      ∃ a b, trimC content = a ++ extract_lang_attribute content ++ b := by
  intro content
  cases hfl : findSubB ("lang".data) (trimC content) with
  | none =>
    left
    simp only [extract_lang_attribute, hfl]
  | some li =>
    obtain ⟨A1, T1, hA1, hli⟩ := findSubB_sound ("lang".data) (trimC content) li hfl
    have hdrop4 : dropB (trimC content) (li + 4) = T1 := by
      have h1 : trimC content = (A1 ++ ("lang".data)) ++ T1 := by
        rw [hA1]
      have h3 : utf8Len ("lang".data) = 4 := by decide
      have h2 : li + 4 = utf8Len (A1 ++ ("lang".data)) := by
        rw [utf8Len_append, h3]
        omega
      rw [h1, h2, dropB_append]
    obtain ⟨U1, hU1⟩ := trimStartC_suffix T1
    cases hr0 : trimStartC (dropB (trimC content) (li + 4)) with
    | nil =>
      left
      simp only [extract_lang_attribute, hfl, hr0]
    | cons c rest1 =>
      have hr0' : trimStartC T1 = c :: rest1 := by rw [← hdrop4, hr0]
      rw [hr0'] at hU1
      by_cases hc : c = '='
      · subst hc
        obtain ⟨U2, hU2⟩ := trimStartC_suffix rest1
        cases hrt : trimStartC rest1 with
        | nil =>
          left
          simp only [extract_lang_attribute, hfl, hr0]
          rw [if_pos trivial]
          simp only [hrt]
        | cons q rest2 =>
          rw [hrt] at hU2
          by_cases hq : q = dquote ∨ q = squote
          · cases hfq : findSubB [q] rest2 with
            | none =>
              left
              simp only [extract_lang_attribute, hfl, hr0]
              rw [if_pos trivial]
              simp only [hrt]
              rw [if_pos hq]
              simp only [hfq]
            | some e =>
              right
              have hres : extract_lang_attribute content = takeB rest2 e := by
                simp only [extract_lang_attribute, hfl, hr0]
                rw [if_pos trivial]
                simp only [hrt]
                rw [if_pos hq]
                simp only [hfq]
              obtain ⟨A2, T2, hA2, he⟩ := findSubB_sound [q] rest2 e hfq
              have htk : takeB rest2 e = A2 := by
                rw [hA2, he, List.append_assoc, takeB_append]
              rw [hres, htk]
              refine ⟨A1 ++ ("lang".data) ++ U1 ++ ('=' :: U2) ++ [q],
                [q] ++ T2, ?_⟩
              rw [hA1, hU1, hU2, hA2]
              simp [List.append_assoc]
          · cases hfw : findCharB (fun ch => rustIsWhitespace ch || ch = '>')
                (q :: rest2) with
            | some e =>
              right
              have hres : extract_lang_attribute content = takeB (q :: rest2) e := by
                simp only [extract_lang_attribute, hfl, hr0]
                rw [if_pos trivial]
                simp only [hrt]
                rw [if_neg hq]
                simp only [hfw]
              obtain ⟨A3, ch, T3, hA3, hch, he⟩ := findCharB_sound _ (q :: rest2) e hfw
              have htk : takeB (q :: rest2) e = A3 := by
                rw [hA3, he, takeB_append]
              rw [hres, htk]
              refine ⟨A1 ++ ("lang".data) ++ U1 ++ ('=' :: U2), ch :: T3, ?_⟩
              rw [hA1, hU1, hU2, hA3]
              simp [List.append_assoc]
            | none =>
              right
              have hres : extract_lang_attribute content = q :: rest2 := by
                simp only [extract_lang_attribute, hfl, hr0]
                rw [if_pos trivial]
                simp only [hrt]
                rw [if_neg hq]
                simp only [hfw]
              rw [hres]
              refine ⟨A1 ++ ("lang".data) ++ U1 ++ ('=' :: U2), [], ?_⟩
              rw [hA1, hU1, hU2]
              simp [List.append_assoc]
      · left
        simp only [extract_lang_attribute, hfl, hr0]
        rw [if_neg hc]
